import Mathlib

/-!
Verification of the pbtranscript collapsing and chaining core.

This file gives a shallow embedding, in Lean, of the parts of the
pbtranscript code base that the specification talks about:

* `pbtranscript/io/GroupIO.py` (`GroupRecord`),
* `pbtranscript/io/MergeGroupIO.py` (`MergeGroupOperation`),
* `pbtranscript/counting/chain_samples.py` (abundance reading, the
  sample fold loop, and the backward chain resolution walk),
* `pbtranscript/counting/Count.py` (`CountRunner` input validation),
* `pbtranscript/collapsing/CollapseIsoforms.py` (`CollapseIsoformsRunner`
  and `Branch`).

Pure Python string manipulation is modelled on `List Char` / `String`;
Python dictionaries keyed by strings are modelled as association lists or
as functions into `Option`; Python exceptions are modelled with `Except`
or `Option` results.
-/

/-! ## Python string primitives

`splitOnChar sep l` models the Python expression `s.split(sep)` for a one
character separator: it always returns at least one (possibly empty)
field, and `n` separators yield `n + 1` fields.  `joinWith sep ls` models
`sep.join(ls)`.  `isPySpace` is the set of characters stripped by the
Python 2 `str.strip()`.
-/

def splitOnChar (sep : Char) : List Char → List (List Char)
  | [] => [[]]
  | c :: cs =>
    if c = sep then
      [] :: splitOnChar sep cs
    else
      match splitOnChar sep cs with
      | [] => [[c]]
      | g :: gs => (c :: g) :: gs

def joinWith (sep : Char) : List (List Char) → List Char
  | [] => []
  | [m] => m
  | m :: ms => m ++ sep :: joinWith sep ms

def isPySpace (c : Char) : Bool :=
  c = ' ' || c = '\t' || c = '\n' || c = '\x0d' || c = '\x0b' || c = '\x0c'

def pyStrip (l : List Char) : List Char :=
  ((l.dropWhile isPySpace).reverse.dropWhile isPySpace).reverse

/-! Basic lemmas about `splitOnChar` and `joinWith`. -/

theorem splitOnChar_ne_nil (sep : Char) (l : List Char) : splitOnChar sep l ≠ [] := by
  induction l with
  | nil => simp [splitOnChar]
  | cons c cs ih =>
    by_cases h : c = sep
    · simp [splitOnChar, h]
    · simp only [splitOnChar, if_neg h]
      revert ih
      cases splitOnChar sep cs <;> simp

theorem splitOnChar_of_not_mem (sep : Char) (l : List Char) (h : sep ∉ l) :
    splitOnChar sep l = [l] := by
  induction l with
  | nil => rfl
  | cons c cs ih =>
    have hc : ¬c = sep := fun hc => h (by simp [hc])
    have hcs : sep ∉ cs := fun hm => h (List.mem_cons_of_mem _ hm)
    simp [splitOnChar, hc, ih hcs]

theorem splitOnChar_append_cons (sep : Char) (xs rest : List Char) (h : sep ∉ xs) :
    splitOnChar sep (xs ++ sep :: rest) = xs :: splitOnChar sep rest := by
  induction xs with
  | nil => simp [splitOnChar]
  | cons c cs ih =>
    have hc : ¬c = sep := fun hc => h (by simp [hc])
    have hcs : sep ∉ cs := fun hm => h (List.mem_cons_of_mem _ hm)
    have := ih hcs
    simp only [List.cons_append, splitOnChar, if_neg hc, List.append_eq, this]

theorem splitOnChar_joinWith (sep : Char) (ms : List (List Char))
    (hne : ms ≠ []) (h : ∀ m ∈ ms, sep ∉ m) :
    splitOnChar sep (joinWith sep ms) = ms := by
  induction ms with
  | nil => exact absurd rfl hne
  | cons m ms ih =>
    cases ms with
    | nil =>
      simpa [joinWith] using splitOnChar_of_not_mem sep m (h m (by simp))
    | cons m2 ms2 =>
      have h1 : sep ∉ m := h m (by simp)
      have h2 : ∀ x ∈ m2 :: ms2, sep ∉ x := fun x hx => h x (List.mem_cons_of_mem _ hx)
      have := ih (by simp) h2
      simp only [joinWith, splitOnChar_append_cons sep m _ h1, this]

/-! ## GroupRecord (`pbtranscript/io/GroupIO.py`)

A `GroupRecord` associates a collapsed transcript name with its member
ids.  `GroupRecord.toLine` models the Python `__str__`
(the name, a tab, then the comma-joined members); `GroupRecord.fromString`
models the classmethod of the same name: strip the line, split on tab,
require exactly two fields, and split the second field on commas.
-/

structure GroupRecord where
  name : List Char
  members : List (List Char)
  deriving DecidableEq, Repr

def GroupRecord.toLine (r : GroupRecord) : List Char :=
  r.name ++ '\t' :: joinWith ',' r.members

def GroupRecord.fromString (line : List Char) : Except String GroupRecord :=
  match splitOnChar '\t' (pyStrip line) with
  | [a, b] => .ok ⟨a, splitOnChar ',' b⟩
  | _ => .error "Could not recognize line as a valid GroupRecord."

/-! Auxiliary lemmas for the round trip proof. -/

theorem dropWhile_eq_self_of_head? (p : Char → Bool) (l : List Char)
    (h : ∀ c, l.head? = some c → p c = false) : l.dropWhile p = l := by
  cases l with
  | nil => rfl
  | cons a t =>
    have := h a rfl
    simp [List.dropWhile, this]

theorem pyStrip_eq_self (l : List Char)
    (hhd : ∀ c, l.head? = some c → isPySpace c = false)
    (hlast : ∀ c, l.getLast? = some c → isPySpace c = false) :
    pyStrip l = l := by
  unfold pyStrip
  rw [dropWhile_eq_self_of_head? _ _ hhd]
  rw [dropWhile_eq_self_of_head? _ _ (by simpa using hlast)]
  exact l.reverse_reverse

theorem mem_joinWith (sep : Char) (c : Char) (ms : List (List Char))
    (h : c ∈ joinWith sep ms) : c = sep ∨ ∃ m ∈ ms, c ∈ m := by
  induction ms with
  | nil => simp [joinWith] at h
  | cons m ms ih =>
    cases ms with
    | nil =>
      simp only [joinWith] at h
      exact Or.inr ⟨m, by simp, h⟩
    | cons m2 ms2 =>
      simp only [joinWith, List.mem_append, List.mem_cons] at h
      rcases h with h | h | h
      · exact Or.inr ⟨m, by simp, h⟩
      · exact Or.inl h
      · rcases ih h with h | ⟨x, hx, hcx⟩
        · exact Or.inl h
        · exact Or.inr ⟨x, List.mem_cons_of_mem _ hx, hcx⟩

theorem joinWith_getLast? (sep : Char) (ms : List (List Char)) (lastm : List Char)
    (hms : ms.getLast? = some lastm) (hne : lastm ≠ []) :
    (joinWith sep ms).getLast? = lastm.getLast? := by
  induction ms with
  | nil => simp at hms
  | cons m ms ih =>
    cases ms with
    | nil =>
      simp only [List.getLast?_singleton, Option.some.injEq] at hms
      simp [joinWith, hms]
    | cons m2 ms2 =>
      have hms' : (m2 :: ms2).getLast? = some lastm := by
        rw [List.getLast?_cons_cons] at hms; exact hms
      have hjoin := ih hms'
      obtain ⟨c, hc⟩ := Option.isSome_iff_exists.mp (List.getLast?_isSome.mpr hne)
      rw [hc] at hjoin
      simp only [joinWith, hc]
      have hsplit : sep :: joinWith sep (m2 :: ms2) = [sep] ++ joinWith sep (m2 :: ms2) := rfl
      rw [hsplit, ← List.append_assoc, List.getLast?_append, hjoin]
      rfl

/-! C10 theorems.  The round trip claim fails as stated: a record whose
single member is the empty string serializes to a line ending in a tab,
and `fromString` strips that trailing tab before splitting, so only one
field remains and an error is raised instead of the original record. -/

/-- C10 counterexample: the record with name `name` and the single member
`""` satisfies every hypothesis of the claim (no tab in the name, a
non-empty member list, no tab or comma in any member), yet
`fromString (str record)` does not return the record: the serialized
line ends in a tab, which `strip()` removes, leaving one field. -/
theorem groupRecord_roundtrip_cex :
    ('\t' ∉ (['n', 'a', 'm', 'e'] : List Char)) ∧
    (([[]] : List (List Char)) ≠ []) ∧
    (∀ m ∈ ([[]] : List (List Char)), '\t' ∉ m ∧ ',' ∉ m) ∧
    GroupRecord.fromString (GroupRecord.toLine ⟨['n', 'a', 'm', 'e'], [[]]⟩) ≠
      Except.ok ⟨['n', 'a', 'm', 'e'], [[]]⟩ := by
  refine ⟨by decide, by decide, ?_, ?_⟩
  · intro m hm
    simp only [List.mem_singleton] at hm
    subst hm
    exact ⟨by decide, by decide⟩
  · intro hcontra
    have heval : GroupRecord.fromString (GroupRecord.toLine ⟨['n', 'a', 'm', 'e'], [[]]⟩) =
        Except.error "Could not recognize line as a valid GroupRecord." := rfl
    rw [heval] at hcontra
    exact Except.noConfusion hcontra

/-- C10 (amended): `GroupRecord.fromString (str record)` returns the
original record provided the name contains no tab, is non-empty and does
not start with a whitespace character, the member list is non-empty, every
member contains no tab and no comma, and the last member is non-empty and
does not end with a whitespace character; moreover `fromString` returns an
error on every line that does not split (after stripping) into exactly two
tab separated fields. -/
theorem groupRecord_roundtrip (r : GroupRecord)
    (hnne : r.name ≠ [])
    (hnhd : ∀ c, r.name.head? = some c → isPySpace c = false)
    (hntab : '\t' ∉ r.name)
    (hmne : r.members ≠ [])
    (hmem : ∀ m ∈ r.members, '\t' ∉ m ∧ ',' ∉ m)
    (hlne : ∀ m, r.members.getLast? = some m → m ≠ [])
    (hlws : ∀ m c, r.members.getLast? = some m → m.getLast? = some c → isPySpace c = false) :
    GroupRecord.fromString (GroupRecord.toLine r) = Except.ok r ∧
    ∀ line, (splitOnChar '\t' (pyStrip line)).length ≠ 2 →
      GroupRecord.fromString line =
        Except.error "Could not recognize line as a valid GroupRecord." := by
  constructor
  · obtain ⟨lastm, hl⟩ := Option.isSome_iff_exists.mp (List.getLast?_isSome.mpr hmne)
    have hlastmne : lastm ≠ [] := hlne lastm hl
    have hjl : (joinWith ',' r.members).getLast? = lastm.getLast? :=
      joinWith_getLast? ',' r.members lastm hl hlastmne
    obtain ⟨c, hc⟩ := Option.isSome_iff_exists.mp (List.getLast?_isSome.mpr hlastmne)
    have hjtab : '\t' ∉ joinWith ',' r.members := by
      intro hmemtab
      rcases mem_joinWith ',' '\t' r.members hmemtab with h | ⟨m, hm, hcm⟩
      · exact absurd h (by decide)
      · exact (hmem m hm).1 hcm
    have hstrip : pyStrip (GroupRecord.toLine r) = GroupRecord.toLine r := by
      apply pyStrip_eq_self
      · intro d hd
        apply hnhd d
        unfold GroupRecord.toLine at hd
        rw [List.head?_append] at hd
        obtain ⟨n0, hn0⟩ := Option.isSome_iff_exists.mp (List.head?_isSome.mpr hnne)
        rw [hn0] at hd ⊢
        exact hd
      · intro d hd
        unfold GroupRecord.toLine at hd
        have harr : r.name ++ '\t' :: joinWith ',' r.members =
            (r.name ++ ['\t']) ++ joinWith ',' r.members := by simp
        rw [harr, List.getLast?_append, hjl, hc] at hd
        have hor : (Option.some c).or ((r.name ++ ['\t']).getLast?) = some c := rfl
        rw [hor] at hd
        have hd2 : c = d := Option.some.inj hd
        subst hd2
        exact hlws lastm c hl hc
    unfold GroupRecord.fromString
    rw [hstrip]
    unfold GroupRecord.toLine
    rw [splitOnChar_append_cons '\t' r.name _ hntab,
        splitOnChar_of_not_mem '\t' _ hjtab]
    show Except.ok ⟨r.name, splitOnChar ',' (joinWith ',' r.members)⟩ = Except.ok r
    rw [splitOnChar_joinWith ',' r.members hmne (fun m hm => (hmem m hm).2)]
  · intro line hlen
    unfold GroupRecord.fromString
    rcases hsp : splitOnChar '\t' (pyStrip line) with _ | ⟨a, _ | ⟨b, _ | ⟨c, rest⟩⟩⟩
    · rfl
    · rfl
    · rw [hsp] at hlen; simp at hlen
    · rfl

/-- C10 witness: a concrete record satisfying the amended hypotheses
round trips through serialization. -/
theorem groupRecord_roundtrip_witness :
    GroupRecord.fromString (GroupRecord.toLine ⟨['g', '1'], [['a'], ['b']]⟩) =
      Except.ok ⟨['g', '1'], [['a'], ['b']]⟩ := by
  have h := groupRecord_roundtrip ⟨['g', '1'], [['a'], ['b']]⟩
    (by decide)
    (by intro c hc
        simp only [List.head?_cons, Option.some.injEq] at hc
        subst hc; decide)
    (by decide)
    (by decide)
    (by intro m hm
        rcases List.mem_cons.mp hm with h | h
        · subst h; exact ⟨by decide, by decide⟩
        · simp only [List.mem_singleton] at h
          subst h; exact ⟨by decide, by decide⟩)
    (by intro m hm
        have hgl : ([['a'], ['b']] : List (List Char)).getLast? = some ['b'] := rfl
        rw [hgl] at hm
        simp only [Option.some.injEq] at hm
        subst hm; decide)
    (by intro m c hm hc
        have hgl : ([['a'], ['b']] : List (List Char)).getLast? = some ['b'] := rfl
        rw [hgl] at hm
        simp only [Option.some.injEq] at hm
        subst hm
        simp only [List.getLast?_singleton, Option.some.injEq] at hc
        subst hc; decide)
  exact h.1

/-! ## MergeGroupOperation (`pbtranscript/io/MergeGroupIO.py`)

A merge group operation merges two parent groups into one mega
transcript.  In Python a parent is a `GmapRecord`, a plain string id, or
`None` (absent).  Only the `seqid` field of a `GmapRecord` is used by the
serializer, so a `GmapRecord` parent is modelled by its seqid (the class
itself lives in `pbtranscript/io/GffIO.py`).  The constructor runs
`_sanity_check`, whose `assert not (group1 is None and group2 is None)`
is modelled by returning `none` when both parents are absent; the
`isinstance` asserts hold by construction in the typed model. -/

inductive MergeGroup where
  | gmap (seqid : String)
  | strv (s : String)
  deriving DecidableEq, Repr

def mergeGroupToStr : Option MergeGroup → String
  | none => "NA"
  | some (.gmap seqid) => seqid
  | some (.strv s) => s

structure MergeGroupOperation where
  pbid : String
  group1 : Option MergeGroup
  group2 : Option MergeGroup
  deriving DecidableEq, Repr

def mkMergeGroupOperation (pbid : String) (g1 g2 : Option MergeGroup) :
    Option MergeGroupOperation :=
  if g1 = none ∧ g2 = none then none
  else some ⟨pbid, g1, g2⟩

def MergeGroupOperation.serialize (op : MergeGroupOperation) : String :=
  op.pbid ++ "\t" ++ mergeGroupToStr op.group1 ++ "\t" ++ mergeGroupToStr op.group2

/-- C9: constructing a `MergeGroupOperation` succeeds exactly when not
both parents are absent, every successfully constructed operation keeps
the given pbid and parents (so no persisted merge record has two absent
parents), and an absent (`None`) parent serializes as the string `NA`. -/
theorem mergeGroupOperation_sanity (pbid : String) (g1 g2 : Option MergeGroup) :
    ((mkMergeGroupOperation pbid g1 g2).isSome ↔ ¬(g1 = none ∧ g2 = none)) ∧
    (∀ op, mkMergeGroupOperation pbid g1 g2 = some op →
      op.pbid = pbid ∧ op.group1 = g1 ∧ op.group2 = g2 ∧
      ¬(op.group1 = none ∧ op.group2 = none) ∧
      op.serialize = pbid ++ "\t" ++ mergeGroupToStr g1 ++ "\t" ++ mergeGroupToStr g2) ∧
    mergeGroupToStr none = "NA" := by
  refine ⟨?_, ?_, rfl⟩
  · unfold mkMergeGroupOperation
    by_cases h : g1 = none ∧ g2 = none
    · simp [h]
    · simp [h]
  · intro op hop
    unfold mkMergeGroupOperation at hop
    by_cases h : g1 = none ∧ g2 = none
    · simp [h] at hop
    · rw [if_neg h] at hop
      have hop2 := Option.some.inj hop
      subst hop2
      exact ⟨rfl, rfl, rfl, h, rfl⟩

/-- C9 witness: constructing with an absent first parent and a string
second parent succeeds, and the absent side serializes as `NA`. -/
theorem mergeGroupOperation_sanity_witness :
    (mkMergeGroupOperation "PB.1.1" none (some (.strv "PB.2.1")) = 
      some ⟨"PB.1.1", none, some (.strv "PB.2.1")⟩) ∧
    (⟨"PB.1.1", none, some (.strv "PB.2.1")⟩ : MergeGroupOperation).serialize =
      "PB.1.1" ++ "\t" ++ "NA" ++ "\t" ++ "PB.2.1" := by
  have h := (mergeGroupOperation_sanity "PB.1.1" none (some (.strv "PB.2.1"))).2.1
    ⟨"PB.1.1", none, some (.strv "PB.2.1")⟩ rfl
  exact ⟨rfl, h.2.2.2.2⟩

/-! ## Chain resolution (`pbtranscript/counting/chain_samples.py`, lines 114-145)

The resolution loop walks the chain of `mega_info` records backward.
A `mega_info` row read by `MegaInfoReader` (a csv `DictReader`) is
modelled as an association list from column name to value; `megaGet`
models the `r[key]` subscript (`none` models a Python `KeyError`).  The
two NA-defaulting `defaultdict` maps `chain_to_pbid` and
`chain_to_abundance` are modelled as association lists whose lookup
defaults to `NA` (for abundance, `none` plays the role of the default
`NA` string, since a numeric abundance value is never the string `NA`).
The abundance value type is an arbitrary type `A`; `abInfo` models the
`abundance_info` dict built by `get_abundance_info`, `megaD` models the
`mega_info_d` dict built by `get_mega_info_dict`, both keyed by
`(name-or-tmp-prefix, pbid)`.
-/

def megaGet (r : List (String × String)) (k : String) : Option String :=
  (r.find? (fun p => p.1 == k)).map Prod.snd

def lookupD (m : List (String × String)) (k : String) : String :=
  match m.find? (fun p => p.1 == k) with
  | some p => p.2
  | none => "NA"

def lookupA {A : Type} (m : List (String × A)) (k : String) : Option A :=
  (m.find? (fun p => p.1 == k)).map Prod.snd

structure RState (A : Type) where
  pbidM : List (String × String)
  abM : List (String × A)

/-- Middle of the backward walk: the Python slice `chain[::-1][1:-1]`,
i.e. the reversal of the chain without its first and last samples. -/
def middleOf (chain : List String) : List String :=
  ((chain.drop 1).dropLast).reverse

/-- One backward step per middle sample `c`, with prefix `tmp_ + c`
(the `ChainFiles.o_prefix` of that fold step): stop with `some c` when the
accumulated-side column holds `NA`, otherwise look the operation up in
`mega_info_d`, record the per-sample id (and its abundance when the id is
not `NA`), and continue from the looked-up record. -/
def chainWalk {A : Type} (megaD : String → String → Option (List (String × String)))
    (abInfo : String → String → Option A) :
    List String → List (String × String) → RState A →
    Except String (Option String × List (String × String) × RState A)
  | [], r, st => .ok (none, r, st)
  | c :: cs, r, st =>
    match megaGet r ("tmp_" ++ c) with
    | none => .error ("KeyError: " ++ ("tmp_" ++ c))
    | some v =>
      if v = "NA" then .ok (some c, r, st)
      else
        match megaD ("tmp_" ++ c) v with
        | none => .error ("KeyError: (" ++ ("tmp_" ++ c) ++ ", " ++ v ++ ")")
        | some r2 =>
          match megaGet r2 c with
          | none => .error ("KeyError: " ++ c)
          | some pid =>
            if pid = "NA" then
              chainWalk megaD abInfo cs r2 ⟨(c, pid) :: st.pbidM, st.abM⟩
            else
              match abInfo c pid with
              | none => .error ("KeyError: (" ++ c ++ ", " ++ pid ++ ")")
              | some a =>
                chainWalk megaD abInfo cs r2 ⟨(c, pid) :: st.pbidM, (c, a) :: st.abM⟩

/-- Initial state: `chain_to_pbid[chain[-1]] = r[chain[-1]]`, and its
abundance when the id is not `NA`. -/
def initResolveState {A : Type} (abInfo : String → String → Option A)
    (lastS v : String) : Except String (RState A) :=
  if v = "NA" then .ok ⟨[(lastS, v)], []⟩
  else
    match abInfo lastS v with
    | none => .error ("KeyError: (" ++ lastS ++ ", " ++ v ++ ")")
    | some a => .ok ⟨[(lastS, v)], [(lastS, a)]⟩

/-- Final step when the walk saw no `NA`:
`chain_to_pbid[chain[0]] = r[chain[0]]` plus its abundance. -/
def finishResolveState {A : Type} (abInfo : String → String → Option A)
    (c0 : String) (r : List (String × String)) (st : RState A) :
    Except String (RState A) :=
  match megaGet r c0 with
  | none => .error ("KeyError: " ++ c0)
  | some v0 =>
    if v0 = "NA" then .ok ⟨(c0, v0) :: st.pbidM, st.abM⟩
    else
      match abInfo c0 v0 with
      | none => .error ("KeyError: (" ++ c0 ++ ", " ++ v0 ++ ")")
      | some a0 => .ok ⟨(c0, v0) :: st.pbidM, (c0, a0) :: st.abM⟩

structure ResolveResult (A : Type) where
  stopAt : Option String
  pbidM : List (String × String)
  abM : List (String × A)

/-- Resolution of one mega transcript row `r0` of the last fold step:
the body of the `for r in reader` loop of `chain_samples`. -/
def resolveRecord {A : Type} (megaD : String → String → Option (List (String × String)))
    (abInfo : String → String → Option A) (chain : List String)
    (r0 : List (String × String)) : Except String (ResolveResult A) :=
  match chain.getLast? with
  | none => .error "IndexError: list index out of range"
  | some lastS =>
    match megaGet r0 lastS with
    | none => .error ("KeyError: " ++ lastS)
    | some v =>
      match initResolveState abInfo lastS v with
      | .error e => .error e
      | .ok st1 =>
        match chainWalk megaD abInfo (middleOf chain) r0 st1 with
        | .error e => .error e
        | .ok (some c, _, st) => .ok ⟨some c, st.pbidM, st.abM⟩
        | .ok (none, r, st) =>
          match chain.head? with
          | none => .error "IndexError: list index out of range"
          | some c0 =>
            match finishResolveState abInfo c0 r st with
            | .error e => .error e
            | .ok st2 => .ok ⟨none, st2.pbidM, st2.abM⟩

/-- Cell of the `all_samples.chained_ids.txt` row for sample `c`:
`chain_to_pbid[c]` with default `NA`. -/
def pbidCell {A : Type} (res : ResolveResult A) (c : String) : String :=
  lookupD res.pbidM c

/-- Cell of the `all_samples.chained_count.txt` row for sample `c`:
the Python expression writing `NA` when the map holds the default and
otherwise the `%.4e`-formatted value, with the `%.4e`
float formatting abstracted as `fmt`. -/
def countCell {A : Type} (fmt : A → String) (res : ResolveResult A) (c : String) : String :=
  match lookupA res.abM c with
  | none => "NA"
  | some a => fmt a

def chainedIdsRow {A : Type} (chain : List String) (res : ResolveResult A) : List String :=
  chain.map (pbidCell res)

def chainedCountRow {A : Type} (fmt : A → String) (chain : List String)
    (res : ResolveResult A) : List String :=
  chain.map (countCell fmt res)

/-! Association list lookup lemmas. -/

theorem lookupD_cons_eq (k v : String) (m : List (String × String)) :
    lookupD ((k, v) :: m) k = v := by
  simp [lookupD, List.find?]

theorem lookupD_cons_ne (k v : String) (m : List (String × String)) (d : String)
    (h : d ≠ k) : lookupD ((k, v) :: m) d = lookupD m d := by
  have : (k == d) = false := beq_false_of_ne (Ne.symm h)
  simp [lookupD, List.find?, this]

theorem lookupA_cons_eq {A : Type} (k : String) (a : A) (m : List (String × A)) :
    lookupA ((k, a) :: m) k = some a := by
  simp [lookupA, List.find?]

theorem lookupA_cons_ne {A : Type} (k : String) (a : A) (m : List (String × A)) (d : String)
    (h : d ≠ k) : lookupA ((k, a) :: m) d = lookupA m d := by
  have : (k == d) = false := beq_false_of_ne (Ne.symm h)
  simp [lookupA, List.find?, this]

/-! Lemmas about the backward walk. -/

theorem chainWalk_preserve {A : Type}
    (megaD : String → String → Option (List (String × String)))
    (abInfo : String → String → Option A) :
    ∀ (cs : List String) (r : List (String × String)) (st : RState A)
      (stop : Option String) (r' : List (String × String)) (st' : RState A),
      chainWalk megaD abInfo cs r st = .ok (stop, r', st') →
      ∀ d, d ∉ cs →
        lookupD st'.pbidM d = lookupD st.pbidM d ∧
        lookupA st'.abM d = lookupA st.abM d := by
  intro cs
  induction cs with
  | nil =>
    intro r st stop r' st' h d _
    simp only [chainWalk, Except.ok.injEq, Prod.mk.injEq] at h
    obtain ⟨-, -, hst⟩ := h
    subst hst
    exact ⟨rfl, rfl⟩
  | cons c cs ih =>
    intro r st stop r' st' h d hd
    have hdc : d ≠ c := fun hh => hd (hh ▸ List.mem_cons_self c cs)
    have hdcs : d ∉ cs := fun hh => hd (List.mem_cons_of_mem c hh)
    simp only [chainWalk] at h
    split at h
    · cases h
    · split at h
      · simp only [Except.ok.injEq, Prod.mk.injEq] at h
        obtain ⟨-, -, hst⟩ := h
        subst hst
        exact ⟨rfl, rfl⟩
      · split at h
        · cases h
        · split at h
          · cases h
          · split at h
            · obtain ⟨h1, h2⟩ := ih _ _ _ _ _ h d hdcs
              exact ⟨h1.trans (lookupD_cons_ne _ _ _ _ hdc), h2⟩
            · split at h
              · cases h
              · obtain ⟨h1, h2⟩ := ih _ _ _ _ _ h d hdcs
                exact ⟨h1.trans (lookupD_cons_ne _ _ _ _ hdc),
                       h2.trans (lookupA_cons_ne _ _ _ _ hdc)⟩

theorem chainWalk_stop {A : Type}
    (megaD : String → String → Option (List (String × String)))
    (abInfo : String → String → Option A) :
    ∀ (cs : List String) (r : List (String × String)) (st : RState A)
      (c : String) (r' : List (String × String)) (st' : RState A),
      chainWalk megaD abInfo cs r st = .ok (some c, r', st') →
      ∃ pre suf, cs = pre ++ c :: suf ∧
        ∀ d, d ∉ pre →
          lookupD st'.pbidM d = lookupD st.pbidM d ∧
          lookupA st'.abM d = lookupA st.abM d := by
  intro cs
  induction cs with
  | nil =>
    intro r st c r' st' h
    simp only [chainWalk, Except.ok.injEq, Prod.mk.injEq] at h
    exact absurd h.1 (by simp)
  | cons c1 cs ih =>
    intro r st c r' st' h
    simp only [chainWalk] at h
    split at h
    · cases h
    · split at h
      · simp only [Except.ok.injEq, Prod.mk.injEq, Option.some.injEq] at h
        obtain ⟨hc, -, hst⟩ := h
        subst hc
        subst hst
        exact ⟨[], cs, by simp, fun d _ => ⟨rfl, rfl⟩⟩
      · split at h
        · cases h
        · split at h
          · cases h
          · split at h
            · obtain ⟨pre, suf, hcs, hpres⟩ := ih _ _ _ _ _ h
              refine ⟨c1 :: pre, suf, by simp [hcs], ?_⟩
              intro d hd
              have hdc : d ≠ c1 := fun hh => hd (hh ▸ List.mem_cons_self c1 pre)
              have hdp : d ∉ pre := fun hh => hd (List.mem_cons_of_mem c1 hh)
              obtain ⟨h1, h2⟩ := hpres d hdp
              exact ⟨h1.trans (lookupD_cons_ne _ _ _ _ hdc), h2⟩
            · split at h
              · cases h
              · obtain ⟨pre, suf, hcs, hpres⟩ := ih _ _ _ _ _ h
                refine ⟨c1 :: pre, suf, by simp [hcs], ?_⟩
                intro d hd
                have hdc : d ≠ c1 := fun hh => hd (hh ▸ List.mem_cons_self c1 pre)
                have hdp : d ∉ pre := fun hh => hd (List.mem_cons_of_mem c1 hh)
                obtain ⟨h1, h2⟩ := hpres d hdp
                exact ⟨h1.trans (lookupD_cons_ne _ _ _ _ hdc),
                       h2.trans (lookupA_cons_ne _ _ _ _ hdc)⟩

/-- A state is consistent when every recorded abundance is exactly the
abundance table entry for the recorded per-sample id of that sample. -/
def ConsistentState {A : Type} (abInfo : String → String → Option A) (st : RState A) : Prop :=
  ∀ c a, lookupA st.abM c = some a → abInfo c (lookupD st.pbidM c) = some a

theorem chainWalk_consistent {A : Type}
    (megaD : String → String → Option (List (String × String)))
    (abInfo : String → String → Option A) :
    ∀ (cs : List String) (r : List (String × String)) (st : RState A)
      (stop : Option String) (r' : List (String × String)) (st' : RState A),
      cs.Nodup →
      (∀ x ∈ cs, lookupA st.abM x = none) →
      ConsistentState abInfo st →
      chainWalk megaD abInfo cs r st = .ok (stop, r', st') →
      ConsistentState abInfo st' := by
  intro cs
  induction cs with
  | nil =>
    intro r st stop r' st' _ _ hcons h
    simp only [chainWalk, Except.ok.injEq, Prod.mk.injEq] at h
    obtain ⟨-, -, hst⟩ := h
    subst hst
    exact hcons
  | cons c1 cs ih =>
    intro r st stop r' st' hnd hfresh hcons h
    have hnd' : cs.Nodup := (List.nodup_cons.mp hnd).2
    have hc1cs : c1 ∉ cs := (List.nodup_cons.mp hnd).1
    simp only [chainWalk] at h
    split at h
    · cases h
    · split at h
      · simp only [Except.ok.injEq, Prod.mk.injEq] at h
        obtain ⟨-, -, hst⟩ := h
        subst hst
        exact hcons
      · split at h
        · cases h
        · split at h
          · cases h
          · rename_i r2 _ pid _
            split at h
            · rename_i hpidNA
              refine ih _ _ _ _ _ hnd' ?_ ?_ h
              · intro x hx
                exact hfresh x (List.mem_cons_of_mem c1 hx)
              · intro x a hx
                by_cases hxc : x = c1
                · subst hxc
                  have : lookupA st.abM x = none := hfresh x (List.mem_cons_self _ _)
                  rw [show (⟨(x, pid) :: st.pbidM, st.abM⟩ : RState A).abM = st.abM from rfl,
                      this] at hx
                  cases hx
                · have habm : lookupA (⟨(c1, pid) :: st.pbidM, st.abM⟩ : RState A).abM x =
                      lookupA st.abM x := rfl
                  rw [habm] at hx
                  have := hcons x a hx
                  rwa [show (⟨(c1, pid) :: st.pbidM, st.abM⟩ : RState A).pbidM =
                        (c1, pid) :: st.pbidM from rfl,
                      lookupD_cons_ne _ _ _ _ hxc]
            · split at h
              · cases h
              · rename_i a0 habI
                refine ih _ _ _ _ _ hnd' ?_ ?_ h
                · intro x hx
                  have hxc : x ≠ c1 := fun hh => hc1cs (hh ▸ hx)
                  have habm : lookupA (⟨(c1, pid) :: st.pbidM,
                      (c1, a0) :: st.abM⟩ : RState A).abM x =
                      lookupA st.abM x := lookupA_cons_ne _ _ _ _ hxc
                  rw [habm]
                  exact hfresh x (List.mem_cons_of_mem c1 hx)
                · intro x a hx
                  by_cases hxc : x = c1
                  · subst hxc
                    rw [show (⟨(x, pid) :: st.pbidM, (x, a0) :: st.abM⟩ : RState A).abM =
                          (x, a0) :: st.abM from rfl, lookupA_cons_eq] at hx
                    rw [show (⟨(x, pid) :: st.pbidM, (x, a0) :: st.abM⟩ : RState A).pbidM =
                          (x, pid) :: st.pbidM from rfl, lookupD_cons_eq]
                    rw [← Option.some.inj hx]
                    exact habI
                  · rw [show (⟨(c1, pid) :: st.pbidM, (c1, a0) :: st.abM⟩ : RState A).abM =
                          (c1, a0) :: st.abM from rfl, lookupA_cons_ne _ _ _ _ hxc] at hx
                    have := hcons x a hx
                    rwa [show (⟨(c1, pid) :: st.pbidM, (c1, a0) :: st.abM⟩ : RState A).pbidM =
                          (c1, pid) :: st.pbidM from rfl, lookupD_cons_ne _ _ _ _ hxc]

theorem initResolveState_ok {A : Type} (abInfo : String → String → Option A)
    (lastS v : String) (st1 : RState A)
    (h : initResolveState abInfo lastS v = .ok st1) :
    st1.pbidM = [(lastS, v)] ∧
    (st1.abM = [] ∨ ∃ a, abInfo lastS v = some a ∧ st1.abM = [(lastS, a)]) := by
  unfold initResolveState at h
  split at h
  · obtain rfl := Except.ok.inj h
    exact ⟨rfl, Or.inl rfl⟩
  · split at h
    · cases h
    · rename_i a ha
      obtain rfl := Except.ok.inj h
      exact ⟨rfl, Or.inr ⟨a, ha, rfl⟩⟩

theorem initResolveState_consistent {A : Type} (abInfo : String → String → Option A)
    (lastS v : String) (st1 : RState A)
    (h : initResolveState abInfo lastS v = .ok st1) :
    ConsistentState abInfo st1 := by
  obtain ⟨hp, hab⟩ := initResolveState_ok abInfo lastS v st1 h
  intro x a hx
  rcases hab with hab | ⟨a0, ha0, hab⟩
  · rw [hab] at hx
    cases hx
  · rw [hab] at hx
    by_cases hxl : x = lastS
    · subst hxl
      rw [lookupA_cons_eq] at hx
      rw [hp, lookupD_cons_eq, ← Option.some.inj hx]
      exact ha0
    · rw [lookupA_cons_ne _ _ _ _ hxl] at hx
      cases hx

theorem initResolveState_lookup_ne {A : Type} (abInfo : String → String → Option A)
    (lastS v : String) (st1 : RState A) (d : String)
    (h : initResolveState abInfo lastS v = .ok st1) (hd : d ≠ lastS) :
    lookupD st1.pbidM d = "NA" ∧ lookupA st1.abM d = none := by
  obtain ⟨hp, hab⟩ := initResolveState_ok abInfo lastS v st1 h
  constructor
  · rw [hp, lookupD_cons_ne _ _ _ _ hd]
    rfl
  · rcases hab with hab | ⟨a0, -, hab⟩
    · rw [hab]; rfl
    · rw [hab, lookupA_cons_ne _ _ _ _ hd]; rfl

/-- Structural decomposition of a chain with at least two samples: the
first sample, then the reversed middle of the backward walk, then the
last sample. -/
theorem chain_decomp (chain : List String) (h2 : 2 ≤ chain.length) :
    ∃ h0 lastS, chain = (h0 :: (middleOf chain).reverse) ++ [lastS] ∧
      chain.head? = some h0 ∧ chain.getLast? = some lastS := by
  match chain, h2 with
  | x :: y :: rest, _ =>
    have hne : (y :: rest : List String) ≠ [] := by simp
    refine ⟨x, (y :: rest).getLast hne, ?_, rfl, ?_⟩
    · unfold middleOf
      rw [List.reverse_reverse]
      have hdl := List.dropLast_append_getLast hne
      calc x :: y :: rest
          = x :: ((y :: rest).dropLast ++ [(y :: rest).getLast hne]) := by rw [hdl]
        _ = (x :: ((x :: y :: rest).drop 1).dropLast) ++ [(y :: rest).getLast hne] := by
            simp
    · rw [List.getLast?_cons_cons]
      exact List.getLast?_eq_getLast _ hne

/-- If a list with an element `c` absent from both left parts is written
in two ways as `left ++ c :: right`, the two decompositions agree. -/
theorem append_cons_inj {α : Type} {c : α} :
    ∀ {as cs bs ds : List α}, as ++ c :: bs = cs ++ c :: ds →
      c ∉ as → c ∉ cs → as = cs ∧ bs = ds := by
  intro as
  induction as with
  | nil =>
    intro cs bs ds h _ hc
    cases cs with
    | nil =>
      simp only [List.nil_append, List.cons.injEq] at h
      exact ⟨rfl, h.2⟩
    | cons x cs' =>
      simp only [List.nil_append, List.cons_append, List.cons.injEq] at h
      exact absurd (h.1.symm ▸ List.mem_cons_self x cs' : c ∈ x :: cs')
        (by exact fun hmem => hc (h.1 ▸ List.mem_cons_self c cs'))
  | cons a as' ih =>
    intro cs bs ds h ha hc
    cases cs with
    | nil =>
      simp only [List.cons_append, List.nil_append, List.cons.injEq] at h
      exact absurd (h.1 ▸ List.mem_cons_self a as') ha
    | cons x cs' =>
      simp only [List.cons_append, List.cons.injEq] at h
      have ha' : c ∉ as' := fun hm => ha (List.mem_cons_of_mem _ hm)
      have hc' : c ∉ cs' := fun hm => hc (List.mem_cons_of_mem _ hm)
      obtain ⟨h1, h2⟩ := ih h.2 ha' hc'
      exact ⟨by rw [h.1, h1], h2⟩

/-- C1: in chain resolution, when the backward walk over the
MergeGroupOperation chain finds `NA` on the looked-up (accumulated) side
at some fold step `c`, every sample `d` strictly earlier than `c` in the
chain keeps the default `NA` as its resolved id for this transcript, and
its abundance cell is `NA` as well. -/
theorem chain_resolution_na_stops {A : Type}
    (megaD : String → String → Option (List (String × String)))
    (abInfo : String → String → Option A) (fmt : A → String)
    (chain l1 l2 : List String) (c d : String)
    (r0 : List (String × String)) (res : ResolveResult A)
    (hres : resolveRecord megaD abInfo chain r0 = .ok res)
    (hstop : res.stopAt = some c)
    (hch : chain = l1 ++ c :: l2)
    (hnd : chain.Nodup)
    (hd : d ∈ l1) :
    pbidCell res d = "NA" ∧ countCell fmt res d = "NA" := by
  obtain ⟨lastS, hlastS⟩ : ∃ lastS, chain.getLast? = some lastS := by
    refine ⟨(l1 ++ c :: l2).getLast (by simp), ?_⟩
    rw [hch]
    exact List.getLast?_eq_getLast _ (by simp)
  unfold resolveRecord at hres
  simp only [hlastS] at hres
  rcases hv : megaGet r0 lastS with _ | v
  · simp only [hv] at hres; cases hres
  simp only [hv] at hres
  rcases hinit : initResolveState (A := A) abInfo lastS v with e | st1
  · simp only [hinit] at hres; cases hres
  simp only [hinit] at hres
  rcases hwalk : chainWalk megaD abInfo (middleOf chain) r0 st1 with e | ⟨stop, rmid, stw⟩
  · simp only [hwalk] at hres; cases hres
  rcases stop with _ | c1
  · simp only [hwalk] at hres
    rcases hc0 : chain.head? with _ | c0
    · simp only [hc0] at hres; cases hres
    simp only [hc0] at hres
    rcases hfin : finishResolveState abInfo c0 rmid stw with e | st2
    · simp only [hfin] at hres; cases hres
    simp only [hfin] at hres
    obtain rfl := Except.ok.inj hres
    simp only at hstop
    cases hstop
  · simp only [hwalk] at hres
    obtain rfl := Except.ok.inj hres
    simp only at hstop
    obtain rfl := Option.some.inj hstop
    obtain ⟨pre, suf, hmid, hpres⟩ :=
      chainWalk_stop megaD abInfo _ _ _ _ _ _ hwalk
    have h2 : 2 ≤ chain.length := by
      cases chain with
      | nil => cases hlastS
      | cons x chain' =>
        cases chain' with
        | nil =>
          exfalso
          simp only [middleOf, List.drop_succ_cons, List.drop_zero,
            List.dropLast_nil, List.reverse_nil] at hmid
          exact absurd hmid.symm (by simp)
        | cons y rest => simp
    obtain ⟨h0, lastS', hdecomp, hhead, hlastS'⟩ := chain_decomp chain h2
    have hls : lastS' = lastS := by
      rw [hlastS] at hlastS'
      exact (Option.some.inj hlastS').symm
    subst hls
    have hch2 : chain = (h0 :: suf.reverse) ++ c1 :: (pre.reverse ++ [lastS']) := by
      rw [hdecomp, hmid]
      simp [List.reverse_append]
    have hndch : (l1 ++ c1 :: l2).Nodup := hch ▸ hnd
    have hndch2 : ((h0 :: suf.reverse) ++ c1 :: (pre.reverse ++ [lastS'])).Nodup :=
      hch2 ▸ hnd
    have hc1l1 : c1 ∉ l1 := by
      have hdisj := (List.nodup_append.mp hndch).2.2
      intro hmem
      exact hdisj hmem (List.mem_cons_self _ _)
    have hc1left : c1 ∉ h0 :: suf.reverse := by
      have hdisj := (List.nodup_append.mp hndch2).2.2
      intro hmem
      exact hdisj hmem (List.mem_cons_self _ _)
    have heqs : l1 ++ c1 :: l2 = (h0 :: suf.reverse) ++ c1 :: (pre.reverse ++ [lastS']) := by
      rw [← hch, ← hch2]
    obtain ⟨hl1, hl2⟩ := append_cons_inj heqs hc1l1 hc1left
    have hdisj := (List.nodup_append.mp hndch).2.2
    have hdnotl2 : d ∉ c1 :: l2 := fun hmem => hdisj hd hmem
    have hdc1 : d ≠ c1 := fun hh => hdnotl2 (hh ▸ List.mem_cons_self _ _)
    have hdl2 : d ∉ l2 := fun hh => hdnotl2 (List.mem_cons_of_mem _ hh)
    have hdpre : d ∉ pre := by
      intro hmem
      apply hdl2
      rw [hl2]
      exact List.mem_append_left _ (List.mem_reverse.mpr hmem)
    have hdlast : d ≠ lastS' := by
      intro hh
      apply hdl2
      rw [hl2, hh]
      exact List.mem_append_right _ (List.mem_cons_self _ _)
    obtain ⟨hp1, hp2⟩ := hpres d hdpre
    obtain ⟨hi1, hi2⟩ :=
      initResolveState_lookup_ne abInfo lastS' v st1 d hinit hdlast
    constructor
    · show lookupD stw.pbidM d = "NA"
      rw [hp1, hi1]
    · show countCell fmt ⟨some c1, stw.pbidM, stw.abM⟩ d = "NA"
      unfold countCell
      simp only
      show (match lookupA stw.abM d with | none => "NA" | some a => fmt a) = "NA"
      rw [hp2, hi2]

/-- C1 witness: a 3-sample chain where the accumulated side of the fold
step for sample `s2` holds `NA`; the resolved id and abundance cells of
the earlier sample `s1` are both `NA`. -/
theorem chain_resolution_na_stops_witness :
    pbidCell (⟨some "s2", [("s3", "PB.9.1")], [("s3", 7)]⟩ : ResolveResult Nat) "s1" = "NA" ∧
    countCell (fun n => toString n)
      (⟨some "s2", [("s3", "PB.9.1")], [("s3", 7)]⟩ : ResolveResult Nat) "s1" = "NA" :=
  chain_resolution_na_stops
    (fun _ _ => none)
    (fun c pid => if c = "s3" ∧ pid = "PB.9.1" then some 7 else none)
    (fun n => toString n)
    ["s1", "s2", "s3"] ["s1"] ["s3"] "s2" "s1"
    [("pbid", "PB.1.1"), ("tmp_s2", "NA"), ("s3", "PB.9.1")]
    ⟨some "s2", [("s3", "PB.9.1")], [("s3", 7)]⟩
    rfl rfl rfl (by decide) (by decide)

theorem finishResolveState_consistent {A : Type} (abInfo : String → String → Option A)
    (c0 : String) (r : List (String × String)) (st st2 : RState A)
    (hfresh : lookupA st.abM c0 = none)
    (hcons : ConsistentState abInfo st)
    (h : finishResolveState abInfo c0 r st = .ok st2) :
    ConsistentState abInfo st2 := by
  unfold finishResolveState at h
  split at h
  · cases h
  · rename_i v0 hv0
    split at h
    · obtain rfl := Except.ok.inj h
      intro x a hx
      by_cases hxc : x = c0
      · subst hxc
        rw [show (⟨(x, v0) :: st.pbidM, st.abM⟩ : RState A).abM = st.abM from rfl,
            hfresh] at hx
        cases hx
      · rw [show (⟨(c0, v0) :: st.pbidM, st.abM⟩ : RState A).abM = st.abM from rfl] at hx
        have := hcons x a hx
        rwa [show (⟨(c0, v0) :: st.pbidM, st.abM⟩ : RState A).pbidM =
              (c0, v0) :: st.pbidM from rfl, lookupD_cons_ne _ _ _ _ hxc]
    · split at h
      · cases h
      · rename_i a0 ha0
        obtain rfl := Except.ok.inj h
        intro x a hx
        by_cases hxc : x = c0
        · subst hxc
          rw [show (⟨(x, v0) :: st.pbidM, (x, a0) :: st.abM⟩ : RState A).abM =
                (x, a0) :: st.abM from rfl, lookupA_cons_eq] at hx
          rw [show (⟨(x, v0) :: st.pbidM, (x, a0) :: st.abM⟩ : RState A).pbidM =
                (x, v0) :: st.pbidM from rfl, lookupD_cons_eq]
          rw [← Option.some.inj hx]
          exact ha0
        · rw [show (⟨(c0, v0) :: st.pbidM, (c0, a0) :: st.abM⟩ : RState A).abM =
                (c0, a0) :: st.abM from rfl, lookupA_cons_ne _ _ _ _ hxc] at hx
          have := hcons x a hx
          rwa [show (⟨(c0, v0) :: st.pbidM, (c0, a0) :: st.abM⟩ : RState A).pbidM =
                (c0, v0) :: st.pbidM from rfl, lookupD_cons_ne _ _ _ _ hxc]

/-- C6: every cell of the chained abundance row is either the literal
`NA` or the formatted abundance value looked up from the per-sample
abundance table at the sample name and the resolved id of that sample (the
`%.4e` formatting itself is abstracted as `fmt`). -/
theorem chained_count_cells {A : Type}
    (megaD : String → String → Option (List (String × String)))
    (abInfo : String → String → Option A) (fmt : A → String)
    (chain : List String) (r0 : List (String × String)) (res : ResolveResult A)
    (h2 : 2 ≤ chain.length) (hnd : chain.Nodup)
    (hres : resolveRecord megaD abInfo chain r0 = .ok res) :
    ∀ cSample, countCell fmt res cSample = "NA" ∨
      ∃ a, abInfo cSample (pbidCell res cSample) = some a ∧
        countCell fmt res cSample = fmt a := by
  obtain ⟨h0, lastS, hdecomp, hhead, hlastS⟩ := chain_decomp chain h2
  have hndsplit := hdecomp ▸ hnd
  have hdisj := (List.nodup_append.mp hndsplit).2.2
  have hlastnotleft : lastS ∉ h0 :: (middleOf chain).reverse := by
    intro hmem
    exact hdisj hmem (List.mem_cons_self _ _)
  have hndleft : (h0 :: (middleOf chain).reverse).Nodup :=
    (List.nodup_append.mp hndsplit).1
  have hh0mid : h0 ∉ middleOf chain := by
    intro hmem
    exact (List.nodup_cons.mp hndleft).1 (List.mem_reverse.mpr hmem)
  have hh0last : h0 ≠ lastS := by
    intro hh
    exact hlastnotleft (hh ▸ List.mem_cons_self _ _)
  have hmidnd : (middleOf chain).Nodup :=
    List.nodup_reverse.mp (List.nodup_cons.mp hndleft).2
  have hlastmid : ∀ x ∈ middleOf chain, x ≠ lastS := by
    intro x hx hxl
    exact hlastnotleft (List.mem_cons_of_mem _ (List.mem_reverse.mpr (hxl ▸ hx)))
  -- unfold the resolution
  unfold resolveRecord at hres
  simp only [hlastS] at hres
  rcases hv : megaGet r0 lastS with _ | v
  · simp only [hv] at hres; cases hres
  simp only [hv] at hres
  rcases hinit : initResolveState (A := A) abInfo lastS v with e | st1
  · simp only [hinit] at hres; cases hres
  simp only [hinit] at hres
  have hst1cons : ConsistentState abInfo st1 :=
    initResolveState_consistent abInfo lastS v st1 hinit
  have hst1fresh : ∀ x ∈ middleOf chain, lookupA st1.abM x = none := by
    intro x hx
    exact (initResolveState_lookup_ne abInfo lastS v st1 x hinit (hlastmid x hx)).2
  rcases hwalk : chainWalk megaD abInfo (middleOf chain) r0 st1 with e | ⟨stop, rmid, stw⟩
  · simp only [hwalk] at hres; cases hres
  have hstwcons : ConsistentState abInfo stw :=
    chainWalk_consistent megaD abInfo _ _ _ _ _ _ hmidnd hst1fresh hst1cons hwalk
  rcases stop with _ | c1
  · simp only [hwalk] at hres
    rcases hc0 : chain.head? with _ | c0
    · simp only [hc0] at hres; cases hres
    simp only [hc0] at hres
    have hc0h0 : c0 = h0 := by
      rw [hhead] at hc0
      exact (Option.some.inj hc0).symm
    subst hc0h0
    rcases hfin : finishResolveState abInfo c0 rmid stw with e | st2
    · simp only [hfin] at hres; cases hres
    simp only [hfin] at hres
    obtain rfl := Except.ok.inj hres
    have hstwfresh : lookupA stw.abM c0 = none := by
      have hpres := chainWalk_preserve megaD abInfo _ _ _ _ _ _ hwalk c0 hh0mid
      rw [hpres.2]
      exact (initResolveState_lookup_ne abInfo lastS v st1 c0 hinit hh0last).2
    have hst2cons : ConsistentState abInfo st2 :=
      finishResolveState_consistent abInfo c0 rmid stw st2 hstwfresh hstwcons hfin
    intro cSample
    rcases hA : lookupA st2.abM cSample with _ | a
    · left
      show countCell fmt ⟨none, st2.pbidM, st2.abM⟩ cSample = "NA"
      unfold countCell
      simp only
      rw [hA]
    · right
      refine ⟨a, ?_, ?_⟩
      · exact hst2cons cSample a hA
      · show countCell fmt ⟨none, st2.pbidM, st2.abM⟩ cSample = fmt a
        unfold countCell
        simp only
        rw [hA]
  · simp only [hwalk] at hres
    obtain rfl := Except.ok.inj hres
    intro cSample
    rcases hA : lookupA stw.abM cSample with _ | a
    · left
      show countCell fmt ⟨some c1, stw.pbidM, stw.abM⟩ cSample = "NA"
      unfold countCell
      simp only
      rw [hA]
    · right
      refine ⟨a, ?_, ?_⟩
      · exact hstwcons cSample a hA
      · show countCell fmt ⟨some c1, stw.pbidM, stw.abM⟩ cSample = fmt a
        unfold countCell
        simp only
        rw [hA]

/-- C6 witness: a 2-sample chain where both sides resolve; for the
sample `s1` cell the theorem yields the `NA`-or-looked-up-value
disjunction at a concrete resolution result. -/
theorem chained_count_cells_witness :
    countCell (fun n => toString n)
      (⟨none, [("s1", "PB.3.2"), ("s2", "PB.9.1")],
        [("s1", 3), ("s2", 7)]⟩ : ResolveResult Nat) "s1" = "NA" ∨
    ∃ a, (fun c pid =>
        if c = "s1" ∧ pid = "PB.3.2" then some 3
        else if c = "s2" ∧ pid = "PB.9.1" then some 7 else (none : Option Nat)) "s1"
        (pbidCell (⟨none, [("s1", "PB.3.2"), ("s2", "PB.9.1")],
          [("s1", 3), ("s2", 7)]⟩ : ResolveResult Nat) "s1") = some a ∧
      countCell (fun n => toString n)
        (⟨none, [("s1", "PB.3.2"), ("s2", "PB.9.1")],
          [("s1", 3), ("s2", 7)]⟩ : ResolveResult Nat) "s1" = (fun n => toString n) a :=
  chained_count_cells
    (fun _ _ => none)
    (fun c pid =>
      if c = "s1" ∧ pid = "PB.3.2" then some 3
      else if c = "s2" ∧ pid = "PB.9.1" then some 7 else (none : Option Nat))
    (fun n => toString n)
    ["s1", "s2"]
    [("pbid", "PB.1.1"), ("s1", "PB.3.2"), ("s2", "PB.9.1")]
    ⟨none, [("s1", "PB.3.2"), ("s2", "PB.9.1")], [("s1", 3), ("s2", 7)]⟩
    (by decide) (by decide) rfl "s1"

/-! ## Sample fold loop (`chain_samples`, lines 78-98)

`SampleFiles` models one entry of the `ChainConfig`; `ChainFiles` models
the output-files helper class of `chain_samples.py` (its `o_prefix` is
`tmp_` plus the sample name).  The `MegaPBTree` class itself lives in
`pbtranscript/counting/CountingUtils`-adjacent code outside the collapsing
sources; here it is modelled by its constructor arguments (the
accumulated gff file, group file, self prefix and fuzziness), and
`add_sample` is modelled as the emission of one `AddSampleEvent` carrying
exactly the arguments of the Python call.  `foldSamples` mirrors the
`for sample in cfg.samples[1:]` loop body: emit one event, then rebuild
the accumulated tree from the `tmp_` output files of that step. -/

structure SampleFiles where
  name : String
  gffFn : String
  groupFn : String
  abundanceFn : String
  deriving DecidableEq, Repr

structure ChainFiles where
  oPfx : String
  oGffFn : String
  oGroupFn : String
  oMegaFn : String
  deriving DecidableEq, Repr

def mkChainFiles (sampleName : String) : ChainFiles :=
  { oPfx := "tmp_" ++ sampleName
    oGffFn := ("tmp_" ++ sampleName) ++ ".gff"
    oGroupFn := ("tmp_" ++ sampleName) ++ ".group.txt"
    oMegaFn := ("tmp_" ++ sampleName) ++ ".mega_info.txt" }

structure MegaPBTree where
  gffFilename : String
  groupFilename : String
  selfPfx : String
  maxFuzzyJunction : Int
  deriving DecidableEq, Repr

structure AddSampleEvent where
  accGffFn : String
  accGroupFn : String
  accSelfPfx : String
  sampleGffFn : String
  sampleGroupFn : String
  samplePfx : String
  oGffFn : String
  oGroupFn : String
  oMegaFn : String
  deriving DecidableEq, Repr

def mkAddSampleEvent (o : MegaPBTree) (s : SampleFiles) : AddSampleEvent :=
  { accGffFn := o.gffFilename
    accGroupFn := o.groupFilename
    accSelfPfx := o.selfPfx
    sampleGffFn := s.gffFn
    sampleGroupFn := s.groupFn
    samplePfx := s.name
    oGffFn := (mkChainFiles s.name).oGffFn
    oGroupFn := (mkChainFiles s.name).oGroupFn
    oMegaFn := (mkChainFiles s.name).oMegaFn }

def initMegaPBTree (s : SampleFiles) (mfj : Int) : MegaPBTree :=
  { gffFilename := s.gffFn
    groupFilename := s.groupFn
    selfPfx := s.name
    maxFuzzyJunction := mfj }

def nextMegaPBTree (s : SampleFiles) (mfj : Int) : MegaPBTree :=
  { gffFilename := (mkChainFiles s.name).oGffFn
    groupFilename := (mkChainFiles s.name).oGroupFn
    selfPfx := (mkChainFiles s.name).oPfx
    maxFuzzyJunction := mfj }

def foldSamples (mfj : Int) : MegaPBTree → List SampleFiles → List AddSampleEvent
  | _, [] => []
  | o, s :: rest => mkAddSampleEvent o s :: foldSamples mfj (nextMegaPBTree s mfj) rest

def chainSamplesSteps (mfj : Int) : List SampleFiles → Option (List AddSampleEvent)
  | [] => none
  | s0 :: rest => some (foldSamples mfj (initMegaPBTree s0 mfj) rest)

/-- Accumulated `MegaPBTree` in force at each fold step. -/
def megaStates (mfj : Int) : MegaPBTree → List SampleFiles → List MegaPBTree
  | _, [] => []
  | o, s :: rest => o :: megaStates mfj (nextMegaPBTree s mfj) rest

theorem foldSamples_eq_zipWith (mfj : Int) :
    ∀ (rest : List SampleFiles) (o : MegaPBTree),
      foldSamples mfj o rest =
        List.zipWith mkAddSampleEvent (megaStates mfj o rest) rest := by
  intro rest
  induction rest with
  | nil => intro o; rfl
  | cons s rest ih =>
    intro o
    simp only [foldSamples, megaStates, List.zipWith]
    rw [ih]

theorem megaStates_length (mfj : Int) :
    ∀ (rest : List SampleFiles) (o : MegaPBTree),
      (megaStates mfj o rest).length = rest.length := by
  intro rest
  induction rest with
  | nil => intro o; rfl
  | cons s rest ih =>
    intro o
    simp only [megaStates, List.length_cons, ih]

theorem megaStates_get?_succ (mfj : Int) :
    ∀ (rest : List SampleFiles) (o : MegaPBTree) (k : Nat) (s s' : SampleFiles),
      rest.get? k = some s → rest.get? (k + 1) = some s' →
      (megaStates mfj o rest).get? (k + 1) = some (nextMegaPBTree s mfj) := by
  intro rest
  induction rest with
  | nil => intro o k s s' h _; cases h
  | cons r0 rest ih =>
    intro o k s s' hk hk1
    cases k with
    | zero =>
      obtain rfl := Option.some.inj hk
      cases rest with
      | nil => cases hk1
      | cons r1 rest' =>
        rfl
    | succ k' =>
      simp only [List.get?_cons_succ] at hk hk1
      simp only [megaStates, List.get?_cons_succ]
      exact ih (nextMegaPBTree r0 mfj) k' s s' hk hk1

/-- C3: `chain_samples` folds the configured samples strictly in order as
a left-associative chain.  The accumulated tree starts from the first
sample own files; each subsequent sample contributes one fold step (one
`add_sample` call, hence one `mega_info` stream, `N - 1` in total), and
the accumulated tree after merging the `k`-th remaining sample is rebuilt
from the `tmp_` output files of that step — never from any other pairing. -/
theorem chain_samples_fold_order (mfj : Int) (s0 : SampleFiles) (rest : List SampleFiles) :
    chainSamplesSteps mfj (s0 :: rest) =
      some (List.zipWith mkAddSampleEvent (megaStates mfj (initMegaPBTree s0 mfj) rest) rest) ∧
    (foldSamples mfj (initMegaPBTree s0 mfj) rest).length = rest.length ∧
    (megaStates mfj (initMegaPBTree s0 mfj) rest).get? 0 =
      (if rest.isEmpty then none else some (initMegaPBTree s0 mfj)) ∧
    (∀ k s s', rest.get? k = some s → rest.get? (k + 1) = some s' →
      (megaStates mfj (initMegaPBTree s0 mfj) rest).get? (k + 1) =
        some (nextMegaPBTree s mfj)) := by
  refine ⟨?_, ?_, ?_, ?_⟩
  · simp only [chainSamplesSteps, foldSamples_eq_zipWith]
  · rw [foldSamples_eq_zipWith, List.length_zipWith, megaStates_length, Nat.min_self]
  · cases rest with
    | nil => rfl
    | cons r rest' => rfl
  · intro k s s' hk hk1
    exact megaStates_get?_succ mfj rest (initMegaPBTree s0 mfj) k s s' hk hk1

/-- C3 witness: a concrete 3-sample configuration produces exactly two
fold steps in order, and the accumulated tree of the second step is the
first step `tmp_` output. -/
theorem chain_samples_fold_order_witness :
    chainSamplesSteps 5 [⟨"a", "a.gff", "a.group.txt", "a.abundance.txt"⟩,
        ⟨"b", "b.gff", "b.group.txt", "b.abundance.txt"⟩,
        ⟨"c", "c.gff", "c.group.txt", "c.abundance.txt"⟩] =
      some (List.zipWith mkAddSampleEvent
        (megaStates 5 (initMegaPBTree ⟨"a", "a.gff", "a.group.txt", "a.abundance.txt"⟩ 5)
          [⟨"b", "b.gff", "b.group.txt", "b.abundance.txt"⟩,
           ⟨"c", "c.gff", "c.group.txt", "c.abundance.txt"⟩])
        [⟨"b", "b.gff", "b.group.txt", "b.abundance.txt"⟩,
         ⟨"c", "c.gff", "c.group.txt", "c.abundance.txt"⟩]) ∧
    (megaStates 5 (initMegaPBTree ⟨"a", "a.gff", "a.group.txt", "a.abundance.txt"⟩ 5)
        [⟨"b", "b.gff", "b.group.txt", "b.abundance.txt"⟩,
         ⟨"c", "c.gff", "c.group.txt", "c.abundance.txt"⟩]).get? 1 =
      some (nextMegaPBTree ⟨"b", "b.gff", "b.group.txt", "b.abundance.txt"⟩ 5) := by
  have h := chain_samples_fold_order 5 ⟨"a", "a.gff", "a.group.txt", "a.abundance.txt"⟩
    [⟨"b", "b.gff", "b.group.txt", "b.abundance.txt"⟩,
     ⟨"c", "c.gff", "c.group.txt", "c.abundance.txt"⟩]
  exact ⟨h.1, h.2.2.2 0 _ _ rfl rfl⟩

/-! ## Abundance reading (`get_abundance_info`, chain_samples.py lines 34-60)

An abundance row is modelled as a pbid plus named metric fields of an
arbitrary value type `A`; `hasattr r field` / `getattr r field` is
modelled by `abndGetField`.  The Python `raise ValueError("%s abundance
file does not have field %s", fn, field)` passes the format string and
the two identifiers as separate arguments (no interpolation happens);
the error is modelled as that triple.  `env` maps an abundance file name
to its parsed records (the `AbundanceReader`). -/

structure AbundanceRecord (A : Type) where
  pbid : String
  fields : List (String × A)

def abndGetField {A : Type} (r : AbundanceRecord A) (fld : String) : Option A :=
  (r.fields.find? (fun p => p.1 == fld)).map Prod.snd

def missingFieldError (abundanceFn fld : String) : String × String × String :=
  ("%s abundance file does not have field %s", abundanceFn, fld)

def readSampleAbundance {A : Type} (fld : String) (s : SampleFiles) :
    List (AbundanceRecord A) →
      Except (String × String × String) (List ((String × String) × A))
  | [] => .ok []
  | r :: rs =>
    match abndGetField r fld with
    | some v =>
      match readSampleAbundance fld s rs with
      | .error e => .error e
      | .ok l => .ok (((s.name, r.pbid), v) :: l)
    | none => .error (missingFieldError s.abundanceFn fld)

def getAbundanceInfo {A : Type} (env : String → List (AbundanceRecord A)) (fld : String) :
    List SampleFiles →
      Except (String × String × String) (List ((String × String) × A))
  | [] => .ok []
  | s :: ss =>
    match readSampleAbundance fld s (env s.abundanceFn) with
    | .error e => .error e
    | .ok l =>
      match getAbundanceInfo env fld ss with
      | .error e => .error e
      | .ok l2 => .ok (l ++ l2)

theorem readSampleAbundance_error_of_missing {A : Type} (fld : String) (s : SampleFiles) :
    ∀ recs : List (AbundanceRecord A), (∃ r ∈ recs, abndGetField r fld = none) →
      readSampleAbundance fld s recs = .error (missingFieldError s.abundanceFn fld) := by
  intro recs
  induction recs with
  | nil => intro h; obtain ⟨r, hr, -⟩ := h; cases hr
  | cons r rs ih =>
    intro h
    rcases hget : abndGetField r fld with _ | v
    · simp only [readSampleAbundance, hget]
    · have hrs : ∃ x ∈ rs, abndGetField x fld = none := by
        obtain ⟨x, hx, hnone⟩ := h
        rcases List.mem_cons.mp hx with hx1 | hx2
        · subst hx1; rw [hget] at hnone; cases hnone
        · exact ⟨x, hx2, hnone⟩
      simp only [readSampleAbundance, hget, ih hrs]

theorem readSampleAbundance_ok_of_present {A : Type} (fld : String) (s : SampleFiles) :
    ∀ recs : List (AbundanceRecord A), (∀ r ∈ recs, abndGetField r fld ≠ none) →
      ∃ l, readSampleAbundance fld s recs = .ok l := by
  intro recs
  induction recs with
  | nil => intro _; exact ⟨[], rfl⟩
  | cons r rs ih =>
    intro h
    rcases hget : abndGetField r fld with _ | v
    · exact absurd hget (h r (List.mem_cons_self _ _))
    · obtain ⟨l, hl⟩ := ih (fun x hx => h x (List.mem_cons_of_mem _ hx))
      refine ⟨((s.name, r.pbid), v) :: l, ?_⟩
      simp only [readSampleAbundance, hget, hl]

/-- C7: when any sample abundance table lacks the requested metric field,
`get_abundance_info` fails with the `ValueError` that carries the
offending abundance file name and the missing field name; no abundance
map is returned. -/
theorem abundance_missing_field_fatal {A : Type}
    (env : String → List (AbundanceRecord A)) (fld : String)
    (samples : List SampleFiles)
    (h : ∃ s ∈ samples, ∃ r ∈ env s.abundanceFn, abndGetField r fld = none) :
    ∃ s, s ∈ samples ∧ (∃ r ∈ env s.abundanceFn, abndGetField r fld = none) ∧
      getAbundanceInfo env fld samples =
        .error (missingFieldError s.abundanceFn fld) := by
  induction samples with
  | nil => obtain ⟨s, hs, -⟩ := h; cases hs
  | cons s0 ss ih =>
    by_cases h0 : ∃ r ∈ env s0.abundanceFn, abndGetField r fld = none
    · refine ⟨s0, List.mem_cons_self _ _, h0, ?_⟩
      have herr := readSampleAbundance_error_of_missing fld s0 (env s0.abundanceFn) h0
      simp only [getAbundanceInfo, herr]
    · have hss : ∃ s ∈ ss, ∃ r ∈ env s.abundanceFn, abndGetField r fld = none := by
        obtain ⟨s, hs, hr⟩ := h
        rcases List.mem_cons.mp hs with hs1 | hs2
        · subst hs1; exact absurd hr h0
        · exact ⟨s, hs2, hr⟩
      obtain ⟨s, hs, hr, herr⟩ := ih hss
      refine ⟨s, List.mem_cons_of_mem _ hs, hr, ?_⟩
      have hall : ∀ r ∈ env s0.abundanceFn, abndGetField r fld ≠ none := by
        intro r hrmem hnone
        exact h0 ⟨r, hrmem, hnone⟩
      obtain ⟨l, hok⟩ := readSampleAbundance_ok_of_present fld s0 (env s0.abundanceFn) hall
      simp only [getAbundanceInfo, hok, herr]

/-- C7 witness: a single sample whose abundance table lacks the field
`norm_nfl` makes `get_abundance_info` fail with the error naming that
sample abundance file and the field. -/
theorem abundance_missing_field_fatal_witness :
    ∃ s ∈ [(⟨"x", "x.gff", "x.group.txt", "x.abundance.txt"⟩ : SampleFiles)],
      (∃ r ∈ [(⟨"PB.1.1", [("count_fl", (30 : Nat))]⟩ : AbundanceRecord Nat)],
        abndGetField r "norm_nfl" = none) ∧
      getAbundanceInfo
        (fun _ => [(⟨"PB.1.1", [("count_fl", (30 : Nat))]⟩ : AbundanceRecord Nat)])
        "norm_nfl"
        [(⟨"x", "x.gff", "x.group.txt", "x.abundance.txt"⟩ : SampleFiles)] =
        .error (missingFieldError s.abundanceFn "norm_nfl") :=
  abundance_missing_field_fatal
    (fun _ => [(⟨"PB.1.1", [("count_fl", (30 : Nat))]⟩ : AbundanceRecord Nat)])
    "norm_nfl"
    [(⟨"x", "x.gff", "x.group.txt", "x.abundance.txt"⟩ : SampleFiles)]
    ⟨⟨"x", "x.gff", "x.group.txt", "x.abundance.txt"⟩, List.mem_cons_self _ _,
      ⟨"PB.1.1", [("count_fl", (30 : Nat))]⟩, List.mem_cons_self _ _, rfl⟩

/-! ## CollapseIsoformsRunner (`pbtranscript/collapsing/CollapseIsoforms.py`)

The runner constructor derives its file prefix as
`op.join(op.dirname(f), op.basename(f).split(".")[0])`; the posixpath
primitives are modelled below over `List Char`.  `CollapsedFiles` (the
base class) contributes the output name properties, flattened into the
runner structure here.  The side-effecting calls inside
`CollapseIsoformsRunner.run` — `Branch.run`, `collapse_fuzzy_junctions`,
`ln` and `pick_rep`, the latter three living in
`pbtranscript/collapsing/CollapsingUtils.py` and `pbtranscript/Utils.py`
— are modelled as an emitted list of `RunnerAction`s carrying exactly
the arguments of each Python call, in call order. -/

def pyBasename (p : String) : String :=
  String.mk ((splitOnChar '/' p.toList).getLast (splitOnChar_ne_nil '/' p.toList))

def pyDirname (p : String) : String :=
  let parts := splitOnChar '/' p.toList
  if parts.length = 1 then ""
  else
    let headPart := joinWith '/' parts.dropLast ++ ['/']
    if headPart.all (fun c => c = '/') then String.mk headPart
    else String.mk (((headPart.reverse).dropWhile (fun c => c = '/')).reverse)

def pyJoin (a b : String) : String :=
  if b.toList.head? = some '/' then b
  else if a = "" then b
  else if a.toList.getLast? = some '/' then a ++ b
  else a ++ "/" ++ b

def runnerPfx (collapsedIsoformFilename : String) : String :=
  pyJoin (pyDirname collapsedIsoformFilename)
    (String.mk ((splitOnChar '.' (pyBasename collapsedIsoformFilename).toList).headD []))

structure CollapseIsoformsRunner where
  pfx : String
  allowExtra5exon : Bool
  isoformFilename : String
  samFilename : String
  collapsedIsoformFilename : String
  minAlnCoverage : Rat
  minAlnIdentity : Rat
  minFlncCoverage : Int
  maxFuzzyJunction : Int
  skip5ExonAlt : Bool
  deriving DecidableEq, Repr

def mkCollapseIsoformsRunner (isoformFilename samFilename collapsedIsoformFilename : String)
    (minAlnCoverage minAlnIdentity : Rat) (minFlncCoverage maxFuzzyJunction : Int)
    (allowExtra5exon skip5ExonAlt : Bool) : CollapseIsoformsRunner :=
  { pfx := runnerPfx collapsedIsoformFilename
    allowExtra5exon := allowExtra5exon
    isoformFilename := isoformFilename
    samFilename := samFilename
    collapsedIsoformFilename := collapsedIsoformFilename
    minAlnCoverage := minAlnCoverage
    minAlnIdentity := minAlnIdentity
    minFlncCoverage := minFlncCoverage
    maxFuzzyJunction := maxFuzzyJunction
    skip5ExonAlt := skip5ExonAlt }

def has5mergeStr (r : CollapseIsoformsRunner) : String :=
  if r.allowExtra5exon then "5merge" else "no5merge"

def goodGffFn (r : CollapseIsoformsRunner) : String :=
  r.pfx ++ "." ++ has5mergeStr r ++ ".collapsed.good.gff"

def badGffFn (r : CollapseIsoformsRunner) : String :=
  r.pfx ++ "." ++ has5mergeStr r ++ ".collapsed.bad.gff"

def groupFn (r : CollapseIsoformsRunner) : String :=
  r.pfx ++ "." ++ has5mergeStr r ++ ".collapsed.group.txt"

def ignoredIdsTxtFn (r : CollapseIsoformsRunner) : String :=
  r.pfx ++ "." ++ has5mergeStr r ++ ".ignored_ids.txt"

def goodFuzzyGffFn (r : CollapseIsoformsRunner) : String := goodGffFn r ++ ".fuzzy"

def goodUnfuzzyGffFn (r : CollapseIsoformsRunner) : String := goodGffFn r ++ ".unfuzzy"

def badFuzzyGffFn (r : CollapseIsoformsRunner) : String := badGffFn r ++ ".fuzzy"

def badUnfuzzyGffFn (r : CollapseIsoformsRunner) : String := badGffFn r ++ ".unfuzzy"

def fuzzyGroupFn (r : CollapseIsoformsRunner) : String := groupFn r ++ ".fuzzy"

def unfuzzyGroupFn (r : CollapseIsoformsRunner) : String := groupFn r ++ ".unfuzzy"

/-- Property `shall_collapse_fuzzy_junctions`: `max_fuzzy_junction > 0`. -/
def shallCollapseFuzzyJunctions (r : CollapseIsoformsRunner) : Bool :=
  decide (0 < r.maxFuzzyJunction)

inductive RunnerAction where
  | validateInputs (isoformFilename samFilename : String)
  | branchRun (isoformFilename samFilename : String) (covThreshold : Int)
      (minAlnCoverage minAlnIdentity : Rat)
      (allowExtra5exon skip5ExonAlt : Bool)
      (ignoredIdsFn goodGffFn badGffFn groupFn : String)
  | collapseFuzzyJunctions (gffFilename groupFilename fuzzyGffFilename
      fuzzyGroupFilename : String) (allowExtra5exon : Bool) (maxFuzzyJunction : Int)
  | ln (src dst : String)
  | pickRep (isoformFilename gffFilename groupFilename outputFilename : String)
      (pickLeastErrInstead : Bool) (badGffFilename : String)
  deriving DecidableEq, Repr

/-- Call trace of `CollapseIsoformsRunner.run`. -/
def runnerRun (r : CollapseIsoformsRunner) : List RunnerAction :=
  [RunnerAction.validateInputs r.isoformFilename r.samFilename,
   RunnerAction.branchRun r.isoformFilename r.samFilename r.minFlncCoverage
     r.minAlnCoverage r.minAlnIdentity r.allowExtra5exon r.skip5ExonAlt
     (ignoredIdsTxtFn r) (goodUnfuzzyGffFn r) (badUnfuzzyGffFn r) (unfuzzyGroupFn r)] ++
  (if shallCollapseFuzzyJunctions r then
    [RunnerAction.collapseFuzzyJunctions (goodUnfuzzyGffFn r) (unfuzzyGroupFn r)
       (goodFuzzyGffFn r) (fuzzyGroupFn r) r.allowExtra5exon r.maxFuzzyJunction,
     RunnerAction.ln (goodFuzzyGffFn r) (goodGffFn r),
     RunnerAction.ln (fuzzyGroupFn r) (groupFn r)]
  else
    [RunnerAction.ln (goodUnfuzzyGffFn r) (goodGffFn r),
     RunnerAction.ln (unfuzzyGroupFn r) (groupFn r)]) ++
  [RunnerAction.pickRep r.isoformFilename (goodGffFn r) (groupFn r)
     r.collapsedIsoformFilename (!r.allowExtra5exon) (badGffFn r)]

/-- C2: with `max_fuzzy_junction = 0` the run trace contains no
`collapse_fuzzy_junctions` call and the final `good.gff` / `group.txt`
are linked from the unfuzzy generation files; with
`max_fuzzy_junction > 0` the fuzzy stage runs and the final outputs are
linked from the fuzzy generation files. -/
theorem collapse_runner_fuzzy_stage (r : CollapseIsoformsRunner) :
    (r.maxFuzzyJunction = 0 →
      runnerRun r =
        [RunnerAction.validateInputs r.isoformFilename r.samFilename,
         RunnerAction.branchRun r.isoformFilename r.samFilename r.minFlncCoverage
           r.minAlnCoverage r.minAlnIdentity r.allowExtra5exon r.skip5ExonAlt
           (ignoredIdsTxtFn r) (goodUnfuzzyGffFn r) (badUnfuzzyGffFn r) (unfuzzyGroupFn r),
         RunnerAction.ln (goodUnfuzzyGffFn r) (goodGffFn r),
         RunnerAction.ln (unfuzzyGroupFn r) (groupFn r),
         RunnerAction.pickRep r.isoformFilename (goodGffFn r) (groupFn r)
           r.collapsedIsoformFilename (!r.allowExtra5exon) (badGffFn r)] ∧
      (∀ g grp fg fgrp a m,
        RunnerAction.collapseFuzzyJunctions g grp fg fgrp a m ∉ runnerRun r)) ∧
    (0 < r.maxFuzzyJunction →
      runnerRun r =
        [RunnerAction.validateInputs r.isoformFilename r.samFilename,
         RunnerAction.branchRun r.isoformFilename r.samFilename r.minFlncCoverage
           r.minAlnCoverage r.minAlnIdentity r.allowExtra5exon r.skip5ExonAlt
           (ignoredIdsTxtFn r) (goodUnfuzzyGffFn r) (badUnfuzzyGffFn r) (unfuzzyGroupFn r),
         RunnerAction.collapseFuzzyJunctions (goodUnfuzzyGffFn r) (unfuzzyGroupFn r)
           (goodFuzzyGffFn r) (fuzzyGroupFn r) r.allowExtra5exon r.maxFuzzyJunction,
         RunnerAction.ln (goodFuzzyGffFn r) (goodGffFn r),
         RunnerAction.ln (fuzzyGroupFn r) (groupFn r),
         RunnerAction.pickRep r.isoformFilename (goodGffFn r) (groupFn r)
           r.collapsedIsoformFilename (!r.allowExtra5exon) (badGffFn r)]) := by
  constructor
  · intro hz
    have hs : shallCollapseFuzzyJunctions r = false := by
      simp [shallCollapseFuzzyJunctions, hz]
    constructor
    · simp [runnerRun, hs]
    · intro g grp fg fgrp a m hmem
      simp [runnerRun, hs] at hmem
  · intro hp
    have hs : shallCollapseFuzzyJunctions r = true := by
      simp [shallCollapseFuzzyJunctions, hp]
    simp [runnerRun, hs]

/-- C2 witness: a concrete runner with `max_fuzzy_junction = 0` reuses
the unfuzzy files, and one with `max_fuzzy_junction = 5` aliases the
fuzzy files. -/
theorem collapse_runner_fuzzy_stage_witness :
    (runnerRun (mkCollapseIsoformsRunner "in.fastq" "in.sam" "out/collapsed.fastq"
        (99/100 : Rat) (95/100 : Rat) 2 0 false false)).length = 5 ∧
    (runnerRun (mkCollapseIsoformsRunner "in.fastq" "in.sam" "out/collapsed.fastq"
        (99/100 : Rat) (95/100 : Rat) 2 5 false false)).length = 6 := by
  constructor
  · have h := (collapse_runner_fuzzy_stage
      (mkCollapseIsoformsRunner "in.fastq" "in.sam" "out/collapsed.fastq"
        (99/100 : Rat) (95/100 : Rat) 2 0 false false)).1 rfl
    rw [h.1]
    rfl
  · have h := (collapse_runner_fuzzy_stage
      (mkCollapseIsoformsRunner "in.fastq" "in.sam" "out/collapsed.fastq"
        (99/100 : Rat) (95/100 : Rat) 2 5 false false)).2 (by decide)
    rw [h]
    rfl

/-- Flags of the `pick_rep` calls occurring in a run trace. -/
def pickRepFlags : List RunnerAction → List Bool
  | [] => []
  | RunnerAction.pickRep _ _ _ _ flag _ :: rest => flag :: pickRepFlags rest
  | _ :: rest => pickRepFlags rest

/-- C4: the run trace contains exactly one `pick_rep` call, with
`pick_least_err_instead = not allow_extra_5exon` and operating on the
final `good.gff` / `group.txt`; lowest-estimated-error mode is selected
if and only if 5-prime-exon-extra merging is disabled. -/
theorem pick_rep_mode (r : CollapseIsoformsRunner) :
    pickRepFlags (runnerRun r) = [!r.allowExtra5exon] ∧
    RunnerAction.pickRep r.isoformFilename (goodGffFn r) (groupFn r)
      r.collapsedIsoformFilename (!r.allowExtra5exon) (badGffFn r) ∈ runnerRun r := by
  by_cases hs : shallCollapseFuzzyJunctions r
  · constructor
    · simp only [runnerRun, hs, if_pos]
      rfl
    · simp [runnerRun, hs]
  · constructor
    · simp only [runnerRun, if_neg hs]
      rfl
    · simp [runnerRun, hs]

/-! ## Branch.run over iter_gmap_sam (C5)

`Branch.run` (in `CollapseIsoforms.py`) iterates groups produced by
`iter_gmap_sam`; the adapter itself lives in
`pbtranscript/io/SAMReaders.py`, outside these sources, so its sort
check is modelled from the spec. -/

structure AlnRec where
  qID : String
  refID : String
  refStart : Nat
  refEnd : Nat
  strandPlus : Bool
  deriving DecidableEq, Repr

/-- Modelled from the spec: the required input ordering — records sorted
by (reference id, reference start) ascending. -/
def alnOrdered (a b : AlnRec) : Prop :=
  a.refID < b.refID ∨ (a.refID = b.refID ∧ a.refStart ≤ b.refStart)

instance (a b : AlnRec) : Decidable (alnOrdered a b) :=
  inferInstanceAs (Decidable (a.refID < b.refID ∨ (a.refID = b.refID ∧ a.refStart ≤ b.refStart)))

/-- Modelled from the spec: `iter_gmap_sam` streams the alignment records
and yields successive groups of transitively overlapping records on the
same reference; on detecting two successive records out of (reference id,
reference start) order it raises an ordering violation (an error result)
instead of attempting to recover. -/
def iterGmapSamAux : AlnRec → List AlnRec → Nat → List AlnRec →
    Except String (List (List AlnRec))
  | _, cur, _, [] => .ok [cur.reverse]
  | prev, cur, maxEnd, r :: rs =>
    if alnOrdered prev r then
      if r.refID = prev.refID ∧ r.refStart < maxEnd then
        iterGmapSamAux r (r :: cur) (max maxEnd r.refEnd) rs
      else
        match iterGmapSamAux r [r] r.refEnd rs with
        | .error e => .error e
        | .ok gs => .ok (cur.reverse :: gs)
    else .error "SAM file is not sorted by (reference id, reference start)"

def iterGmapSam : List AlnRec → Except String (List (List AlnRec))
  | [] => .ok []
  | r :: rs => iterGmapSamAux r [r] r.refEnd rs

/-- `Branch.run`: iterate over the groups of `iter_gmap_sam` and give
each group one `cuff_index`, starting from 1 (the per-group collapse by
`collapse_sam_records` is abstracted as the grouped output). -/
def branchRun (recs : List AlnRec) : Except String (List (Nat × List AlnRec)) :=
  match iterGmapSam recs with
  | .error e => .error e
  | .ok gs => .ok (gs.enum.map (fun p => (p.1 + 1, p.2)))

theorem iterGmapSamAux_ok_sorted :
    ∀ (rest : List AlnRec) (prev : AlnRec) (cur : List AlnRec) (maxEnd : Nat)
      (gs : List (List AlnRec)),
      iterGmapSamAux prev cur maxEnd rest = .ok gs →
      List.Chain' alnOrdered (prev :: rest) := by
  intro rest
  induction rest with
  | nil => intro prev cur maxEnd gs _; simp
  | cons r rs ih =>
    intro prev cur maxEnd gs h
    simp only [iterGmapSamAux] at h
    split at h
    · rename_i hord
      split at h
      · have := ih r _ _ _ h
        exact List.chain'_cons.mpr ⟨hord, this⟩
      · split at h
        · cases h
        · rename_i gs2 hrec
          have := ih r _ _ _ hrec
          exact List.chain'_cons.mpr ⟨hord, this⟩
    · cases h

/-- C5: feeding an alignment stream that is not sorted by (reference id,
reference start) into the grouping stage makes `Branch.run` raise an
ordering violation: the result is an error and no grouping is produced.
(spec-modelled: the sort check of `iter_gmap_sam` is not in these
sources.) -/
theorem branch_unsorted_raises (recs : List AlnRec)
    (h : ¬ List.Chain' alnOrdered recs) :
    ∃ e, branchRun recs = .error e ∧ ∀ out, branchRun recs ≠ .ok out := by
  cases recs with
  | nil => exact absurd List.chain'_nil h
  | cons r rs =>
    rcases hit : iterGmapSamAux r [r] r.refEnd rs with e | gs
    · refine ⟨e, ?_, ?_⟩
      · simp only [branchRun, iterGmapSam, hit]
      · intro out
        simp only [branchRun, iterGmapSam, hit]
        intro hcontra
        cases hcontra
    · exact absurd (iterGmapSamAux_ok_sorted rs r [r] r.refEnd gs hit) h

/-- C5 witness: two same-reference records with decreasing start
coordinates make `Branch.run` fail with an ordering violation. -/
theorem branch_unsorted_raises_witness :
    ∃ e, branchRun [⟨"q1", "chr1", 100, 200, true⟩, ⟨"q2", "chr1", 50, 80, true⟩] =
        .error e ∧
      ∀ out, branchRun [⟨"q1", "chr1", 100, 200, true⟩, ⟨"q2", "chr1", 50, 80, true⟩] ≠
        .ok out :=
  branch_unsorted_raises
    [⟨"q1", "chr1", 100, 200, true⟩, ⟨"q2", "chr1", 50, 80, true⟩]
    (by
      intro hch
      have h := List.chain'_pair.mp hch
      rcases h with h | ⟨-, h⟩
      · exact absurd h (lt_irrefl _)
      · exact absurd h (by decide))

/-! ## CountRunner (`pbtranscript/counting/Count.py`)

The constructor validates that the group file and the assignment pickle
exist (raising `IOError` naming the missing file), then loads the pickle
and reads its `HQ` entry, turning any load failure or missing key into a
`ValueError`; all of this happens during construction, before `run` can
produce any read-status or abundance output.  The filesystem and
`cPickle.load` are modelled by a `CountEnv`: `loadPickle` returns `none`
when unpickling raises, and the loaded object is a dict from keys such as
`HQ` to sample-prefix dicts. -/

structure CountEnv where
  fileExists : String → Bool
  loadPickle : String → Option (List (String × List (String × String)))

inductive CountErr where
  | ioErr (msg : String)
  | valErr (msg : String)
  deriving DecidableEq, Repr

structure CountRunner where
  readStatFn : String
  abundanceFn : String
  groupFilename : String
  pickleFilename : String
  prefixDict : List (String × String)
  deriving DecidableEq, Repr

def pickleLookup (d : List (String × List (String × String))) (k : String) :
    Option (List (String × String)) :=
  (d.find? (fun p => p.1 == k)).map Prod.snd

def countValidateInputs (env : CountEnv) (groupFilename pickleFilename : String) :
    Except CountErr Unit :=
  if env.fileExists groupFilename = false then
    .error (.ioErr ("Input group file " ++ groupFilename ++ " does not exist"))
  else if env.fileExists pickleFilename = false then
    .error (.ioErr ("Input hq lq prefix dict pickle file " ++ pickleFilename ++
      " does not exist"))
  else .ok ()

def mkCountRunner (env : CountEnv)
    (groupFilename pickleFilename outputReadStatFilename outputAbundanceFilename : String) :
    Except CountErr CountRunner :=
  match countValidateInputs env groupFilename pickleFilename with
  | .error e => .error e
  | .ok _ =>
    match (env.loadPickle pickleFilename).bind (fun d => pickleLookup d "HQ") with
    | none => .error (.valErr
        ("Could not load sample prefix dict (a[\x27HQ\x27]) from pickle " ++ pickleFilename))
    | some hq =>
      .ok ⟨outputReadStatFilename, outputAbundanceFilename, groupFilename,
           pickleFilename, hq⟩

/-- C8: constructing a `CountRunner` fails with an `IOError` naming the
group file when it is missing, with an `IOError` naming the pickle when
that is missing, and with a `ValueError` when the pickle cannot be
loaded or lacks the `HQ` key; a runner is only ever constructed from a
successfully loaded pickle with an `HQ` entry, so a malformed pickle
never silently yields a runner (hence never zero counts). -/
theorem count_runner_validation (env : CountEnv)
    (groupFilename pickleFilename statFn abFn : String) :
    (env.fileExists groupFilename = false →
      mkCountRunner env groupFilename pickleFilename statFn abFn =
        .error (.ioErr ("Input group file " ++ groupFilename ++ " does not exist"))) ∧
    (env.fileExists groupFilename = true → env.fileExists pickleFilename = false →
      mkCountRunner env groupFilename pickleFilename statFn abFn =
        .error (.ioErr ("Input hq lq prefix dict pickle file " ++ pickleFilename ++
          " does not exist"))) ∧
    (env.fileExists groupFilename = true → env.fileExists pickleFilename = true →
      (env.loadPickle pickleFilename).bind (fun d => pickleLookup d "HQ") = none →
      mkCountRunner env groupFilename pickleFilename statFn abFn =
        .error (.valErr
          ("Could not load sample prefix dict (a[\x27HQ\x27]) from pickle " ++
            pickleFilename))) ∧
    (∀ runner, mkCountRunner env groupFilename pickleFilename statFn abFn = .ok runner →
      ∃ d hq, env.loadPickle pickleFilename = some d ∧ pickleLookup d "HQ" = some hq ∧
        runner.prefixDict = hq) := by
  refine ⟨?_, ?_, ?_, ?_⟩
  · intro hg
    simp [mkCountRunner, countValidateInputs, hg]
  · intro hg hp
    simp [mkCountRunner, countValidateInputs, hg, hp]
  · intro hg hp hnone
    simp [mkCountRunner, countValidateInputs, hg, hp, hnone]
  · intro runner hok
    unfold mkCountRunner at hok
    split at hok
    · cases hok
    · rcases hload : (env.loadPickle pickleFilename) with _ | d
      · rw [hload] at hok
        simp only [Option.bind] at hok
        cases hok
      · rw [hload] at hok
        simp only [Option.bind] at hok
        rcases hlk : pickleLookup d "HQ" with _ | hq
        · rw [hlk] at hok
          cases hok
        · rw [hlk] at hok
          obtain rfl := Except.ok.inj hok
          exact ⟨d, hq, rfl, hlk, rfl⟩

/-- C8 witness: a missing group file yields the `IOError` naming it, and
an existing-but-malformed pickle (no `HQ` key) yields the `ValueError`
naming the pickle. -/
theorem count_runner_validation_witness :
    mkCountRunner ⟨fun _ => false, fun _ => none⟩ "g.txt" "p.pickle" "s.txt" "a.txt" =
      .error (.ioErr ("Input group file " ++ "g.txt" ++ " does not exist")) ∧
    mkCountRunner ⟨fun _ => true, fun _ => some [("LQ", [])]⟩ "g.txt" "p.pickle"
        "s.txt" "a.txt" =
      .error (.valErr
        ("Could not load sample prefix dict (a[\x27HQ\x27]) from pickle " ++ "p.pickle")) :=
  ⟨(count_runner_validation ⟨fun _ => false, fun _ => none⟩ "g.txt" "p.pickle"
      "s.txt" "a.txt").1 rfl,
   (count_runner_validation ⟨fun _ => true, fun _ => some [("LQ", [])]⟩ "g.txt" "p.pickle"
      "s.txt" "a.txt").2.2.1 rfl rfl rfl⟩
